import Mathlib

/-!
Verification of the CPC UART driver (src/driver/driver_uart.c).

The ingress synchronizer works over a fixed-capacity byte array `buffer`
with a cursor `buffer_head` counting the valid bytes; the bytes beyond the
cursor are junk that the C code never reads but that physically persists.
We model the array as a `List Nat` (each element a byte value) of fixed
length together with the `head` cursor, and `memmove`/`memcpy` as the
corresponding list surgeries, so that compaction offsets are observable.

The HDLC header codec (`hdlc.h` / `crc.h`) is an external collaborator of
the specified component: only its interface is used by the driver.  It is
kept abstract as a `Codec` structure whose fields mirror the functions the
driver calls (`hdlc_get_hcs`, `sli_cpc_validate_crc_sw`, `hdlc_get_length`)
and the protocol constants (`SLI_CPC_HDLC_HEADER_RAW_SIZE`,
`SLI_CPC_HDLC_FLAG_POS`, `SLI_CPC_HDLC_FLAG_VAL`).
-/

set_option autoImplicit false

namespace CpcUart

/-- Interface of the frame codec collaborator (`hdlc.h`/`crc.h`), as used by
`driver_uart.c`.  `getLength` returns a `uint16_t` in the C code, hence the
bound `getLength_lt`.  `headerRawSize` is `SLI_CPC_HDLC_HEADER_RAW_SIZE`,
`flagPos` is `SLI_CPC_HDLC_FLAG_POS`, `flagVal` is `SLI_CPC_HDLC_FLAG_VAL`. -/
structure Codec where
  headerRawSize : Nat
  flagPos : Nat
  flagVal : Nat
  getHcs : List Nat → Nat
  validateCrc : List Nat → Nat → Bool
  getLength : List Nat → Nat
  headerRawSize_pos : 0 < headerRawSize
  flagPos_lt : flagPos < headerRawSize
  getLength_lt : ∀ l, getLength l < 65536

/-- `#define UART_BUFFER_SIZE 4096 + SLI_CPC_HDLC_HEADER_RAW_SIZE` -/
def UART_BUFFER_SIZE (c : Codec) : Nat := 4096 + c.headerRawSize

/-- The accumulation buffer: the full fixed-capacity byte array (`data`)
plus the cursor `head` counting the valid bytes at the front. -/
structure UartBuffer where
  data : List Nat
  head : Nat
  deriving DecidableEq, Repr

/-- The valid bytes of the buffer: `buffer[0 .. head)`. -/
def UartBuffer.vbytes (b : UartBuffer) : List Nat := b.data.take b.head

/-- `memmove(&d[0], &d[src], n)`: positions `[0, n)` receive the old bytes
`[src, src+n)`; positions from `n` on keep their old contents. -/
def memmoveFront (d : List Nat) (src n : Nat) : List Nat :=
  (d.drop src).take n ++ d.drop n

/-- `memcpy(&d[pos], src, src.length)`: write `src` at offset `pos`. -/
def writeAt (d : List Nat) (pos : Nat) (src : List Nat) : List Nat :=
  d.take pos ++ src ++ d.drop (pos + src.length)

/-- The header-sized window of the array `d` starting at offset `i`
(the bytes a call `validate_header(&buffer[i])` may inspect). -/
def hwin (c : Codec) (d : List Nat) (i : Nat) : List Nat :=
  (d.drop i).take c.headerRawSize

/-- `validate_header` (driver_uart.c:324-339): the marker byte must equal
the sentinel and the header checksum must validate. -/
def validate_header (c : Codec) (hs : List Nat) : Bool :=
  if hs.getD c.flagPos 0 ≠ c.flagVal then
    false
  else if ¬ c.validateCrc hs (c.getHcs hs) then
    false
  else
    true

/-- The scan loop of `header_re_synch` (driver_uart.c:357-375): test the
windows at offsets `i, i+1, ...` (`m` of them) and return the first offset
whose window validates. -/
def findValidHeader (c : Codec) (d : List Nat) : Nat → Nat → Option Nat
  | _, 0 => none
  | i, m + 1 =>
    if validate_header c (hwin c d i) then some i
    else findValidHeader c d (i + 1) m

/-- `header_re_synch` (driver_uart.c:341-386).  Returns whether a header was
found, together with the updated buffer. -/
def header_re_synch (c : Codec) (b : UartBuffer) : Bool × UartBuffer :=
  if b.head < c.headerRawSize then
    (false, b)
  else
    match findValidHeader c b.data 0 (b.head - c.headerRawSize + 1) with
    | some i =>
      if i = 0 then
        (true, b)
      else
        (true, ⟨memmoveFront b.data i (b.head - i), b.head - i⟩)
    | none =>
      (false, ⟨memmoveFront b.data (b.head - c.headerRawSize + 1) (c.headerRawSize - 1),
               c.headerRawSize - 1⟩)

/-- `delimit_and_push_frames_to_core` (driver_uart.c:394-436).  The first
component is the frame written to the core socket (`none` when no frame was
delimited, in which case the C function returns `false`). -/
def delimit_and_push_frames_to_core (c : Codec) (b : UartBuffer) :
    Option (List Nat) × UartBuffer :=
  if b.head < c.headerRawSize then
    (none, b)
  else
    if c.getLength (hwin c b.data 0) + c.headerRawSize > b.head then
      (none, b)
    else
      (some (b.data.take (c.getLength (hwin c b.data 0) + c.headerRawSize)),
       ⟨memmoveFront b.data (c.getLength (hwin c b.data 0) + c.headerRawSize)
          (b.head - (c.getLength (hwin c b.data 0) + c.headerRawSize)),
        b.head - (c.getLength (hwin c b.data 0) + c.headerRawSize)⟩)

/-- The two-state ingress state machine (driver_uart.c:233). -/
inductive SyncState where
  | EXPECTING_HEADER
  | EXPECTING_PAYLOAD
  deriving DecidableEq, Repr

/-- One iteration of the `while (1)` loop of `driver_uart_process_uart`
(driver_uart.c:238-266): returns the next state, the updated buffer, the
frame emitted by this iteration (if any), and whether the loop continues
(`false` means the iteration hit a `return`). -/
def process_step (c : Codec) :
    SyncState → UartBuffer → SyncState × UartBuffer × Option (List Nat) × Bool
  | .EXPECTING_HEADER, b =>
    match header_re_synch c b with
    | (true, b') => (.EXPECTING_PAYLOAD, b', none, true)
    | (false, b') => (.EXPECTING_HEADER, b', none, false)
  | .EXPECTING_PAYLOAD, b =>
    match delimit_and_push_frames_to_core c b with
    | (some f, b') => (.EXPECTING_HEADER, b', some f, true)
    | (none, b') => (.EXPECTING_PAYLOAD, b', none, false)

/-- The full `while (1)` loop of `driver_uart_process_uart`, run with fuel
(the C loop has no fuel; the termination theorem shows a fuel of
`2 * head + 2` always suffices, so the fueled function is total in effect).
Returns the state and buffer at the `return`, plus the frames pushed to the
core socket, in order.  `none` means the fuel ran out. -/
def process_loop (c : Codec) :
    Nat → SyncState → UartBuffer → Option (SyncState × UartBuffer × List (List Nat))
  | 0, _, _ => none
  | fuel + 1, .EXPECTING_HEADER, b =>
    match header_re_synch c b with
    | (true, b') => process_loop c fuel .EXPECTING_PAYLOAD b'
    | (false, b') => some (.EXPECTING_HEADER, b', [])
  | fuel + 1, .EXPECTING_PAYLOAD, b =>
    match delimit_and_push_frames_to_core c b with
    | (some f, b') =>
      (process_loop c fuel .EXPECTING_HEADER b').map fun r => (r.1, r.2.1, f :: r.2.2)
    | (none, b') => some (.EXPECTING_PAYLOAD, b', [])

/-- `read_and_append_uart_received_data` (driver_uart.c:270-322).
`incoming` is the byte queue of the UART device; `FIONREAD` reports its
length.  `none` models the fatal `BUG_ON(available_bytes == 0)`.  Otherwise
the read is clamped to the remaining space and the bytes are copied at
`head`; the result carries the appended count (the C return value) and the
updated buffer. -/
def read_and_append_uart_received_data (incoming : List Nat) (b : UartBuffer)
    (buffer_size : Nat) : Option (Nat × UartBuffer) :=
  if incoming.length = 0 then
    none
  else
    let available_space := buffer_size - b.head
    let actual_read_bytes :=
      if incoming.length < available_space then incoming.length else available_space
    some (actual_read_bytes,
      ⟨writeAt b.data b.head (incoming.take actual_read_bytes),
       b.head + actual_read_bytes⟩)

/-- `driver_uart_process_uart` (driver_uart.c:229-267): append the received
bytes, then drive the state machine loop.  `none` is either the fatal append
or fuel exhaustion (the supplied fuel always suffices, see the termination
theorem). -/
def driver_uart_process_uart (c : Codec) (fuel : Nat) (incoming : List Nat)
    (st : SyncState) (b : UartBuffer) :
    Option (SyncState × UartBuffer × List (List Nat)) :=
  match read_and_append_uart_received_data incoming b (UART_BUFFER_SIZE c) with
  | none => none
  | some (_, b') => process_loop c fuel st b'

/-- Feed a list of chunks through successive `driver_uart_process_uart`
invocations (one epoll wake per chunk), accumulating the emitted frames. -/
def feed_chunks (c : Codec) :
    List (List Nat) → SyncState → UartBuffer →
    Option (SyncState × UartBuffer × List (List Nat))
  | [], st, b => some (st, b, [])
  | ch :: rest, st, b =>
    match driver_uart_process_uart c (2 * (b.head + ch.length) + 2) ch st b with
    | none => none
    | some (st', b', fs) =>
      (feed_chunks c rest st' b').map fun r => (r.1, r.2.1, fs ++ r.2.2)

/-- Observable events of `driver_uart_process_core` (driver_uart.c:438-481).
Sleep durations are recorded as byte counts; the C code converts a byte
count `k` to microseconds as `(double)(k * 8) / uart_bitrate * 1000000`,
a strictly monotone conversion that does not affect event ordering. -/
inductive EgressEvent where
  | pollDepth (depth : Nat)
  | sleepDrain (depth : Nat)
  | sleepIdle (byteTimes : Nat)
  | writeLink
  deriving DecidableEq, Repr

/-- The `TIOCOUTQ` drain loop of `driver_uart_process_core`
(driver_uart.c:457-462): while the current depth is nonzero, sleep for the
time to drain that many bytes, then poll again.  `polls` holds the results
of the successive re-polls; `none` means the supplied poll results ran out
while the queue was still reported busy (the C loop would poll again). -/
def drain_queue_events : Nat → List Nat → Option (List EgressEvent)
  | 0, _ => some []
  | _ + 1, [] => none
  | d + 1, p :: rest =>
    (drain_queue_events p rest).map
      fun evs => .sleepDrain (d + 1) :: .pollDepth p :: evs

/-- The pacing-and-write portion of `driver_uart_process_core`
(driver_uart.c:449-478) as an event trace: initial `TIOCOUTQ` poll, the
drain loop, the fixed 20-byte-time idle sleep (line 467), then the write of
the core message to the UART. -/
def driver_uart_process_core (polls : List Nat) : Option (List EgressEvent) :=
  match polls with
  | [] => none
  | p0 :: rest =>
    (drain_queue_events p0 rest).map
      fun evs => .pollDepth p0 :: (evs ++ [.sleepIdle 20, .writeLink])

/-- `[n - 1, n - 2, ..., 0]`: the successive re-poll results of a queue
draining one byte per poll; `n :: decList n` is the spec's decreasing
queue-depth sequence `[n, n-1, ..., 0]`. -/
def decList : Nat → List Nat
  | 0 => []
  | n + 1 => n :: decList n

/-- One result of the `epoll_wait` call in `driver_thread_func`
(driver_uart.c:148): either a nonnegative event count, or `-1` with
`errno` either `EINTR` or some other error. -/
inductive WaitOutcome where
  | ok (event_count : Nat)
  | fail (is_eintr : Bool)
  deriving DecidableEq, Repr

/-- How the wait block of `driver_thread_func` resolves: a fatal abort
(`FATAL_SYSCALL_ON` / `FATAL_ON`) or proceeding to dispatch with a positive
event count. -/
inductive WaitDecision where
  | fatal
  | proceed (event_count : Nat)
  deriving DecidableEq, Repr

/-- The wait block of `driver_thread_func` (driver_uart.c:146-155): retry
the wait while it fails with `EINTR`; any other failure is
`FATAL_SYSCALL_ON(event_count < 0)`; a zero count is
`FATAL_ON(event_count == 0)`.  `outcomes` is the stream of successive
`epoll_wait` results; `none` means the stream ran out mid-retry. -/
def wait_for_action : List WaitOutcome → Option WaitDecision
  | [] => none
  | .fail true :: rest => wait_for_action rest
  | .fail false :: _ => some .fatal
  | .ok n :: _ => if n = 0 then some .fatal else some (.proceed n)

/-- The `conversion` table of `driver_uart_open` (driver_uart.c:171-183).
The symbolic values are the Linux termios `B*` codes; they come from system
headers, not this repository, and only their nonnegativity matters here. -/
def bitrate_conversion : List (Nat × Int) :=
  [(9600, 13), (19200, 14), (38400, 15), (57600, 4097),
   (115200, 4098), (230400, 4099), (460800, 4100), (921600, 4103)]

/-- The scan of `driver_uart_open` over the conversion table
(driver_uart.c:185-203): `sym_bitrate` starts at `-1` and is overwritten by
the symbolic code of every matching entry. -/
def driver_uart_open_sym (bitrate : Nat) : Int :=
  bitrate_conversion.foldl (fun sym p => if p.1 = bitrate then p.2 else sym) (-1)

/-- The bit-rate validation of `driver_uart_open` (driver_uart.c:204-206):
`FATAL("invalid bitrate")` exactly when `sym_bitrate < 0` after the scan. -/
def driver_uart_open_bitrate_fatal (bitrate : Nat) : Bool :=
  decide (driver_uart_open_sym bitrate < 0)

/-- The set of bit rates enumerated in the conversion table. -/
def supported_bitrates : List Nat :=
  [9600, 19200, 38400, 57600, 115200, 230400, 460800, 921600]

/-- Modelled from the spec: a concrete instance of the out-of-scope frame
codec collaborator (`hdlc.h`/`crc.h` are not part of the specified
component).  It realizes the spec's wire format
`[marker byte][payload-length field][header checksum]` with a 4-byte
header: marker at position 0, a two-byte little-endian payload length at
positions 1-2, and a one-byte checksum (sum of the first three bytes,
mod 256) at position 3.  Used only to instantiate witnesses; all claim
theorems hold for every `Codec`. -/
def testCodec : Codec where
  headerRawSize := 4
  flagPos := 0
  flagVal := 20
  getHcs hs := hs.getD 3 0
  validateCrc hs hcs :=
    decide (hcs = (hs.getD 0 0 + hs.getD 1 0 + hs.getD 2 0) % 256)
  getLength hs := (hs.getD 1 0 + 256 * hs.getD 2 0) % 65536
  headerRawSize_pos := by decide
  flagPos_lt := by decide
  getLength_lt := fun _ => Nat.mod_lt _ (by decide)

/-! ### Helper lemmas about the buffer model -/

theorem memmoveFront_length {d : List Nat} {src n : Nat} (h : src + n ≤ d.length) :
    (memmoveFront d src n).length = d.length := by
  simp only [memmoveFront, List.length_append, List.length_take, List.length_drop]
  omega

theorem vbytes_memmoveFront {d : List Nat} {src n : Nat} (h : src + n ≤ d.length) :
    (UartBuffer.mk (memmoveFront d src n) n).vbytes = (d.drop src).take n := by
  unfold UartBuffer.vbytes memmoveFront
  apply List.take_left'
  simp only [List.length_take, List.length_drop]
  omega

theorem vbytes_drop {b : UartBuffer} {k : Nat} :
    b.vbytes.drop k = (b.data.drop k).take (b.head - k) := by
  unfold UartBuffer.vbytes
  rw [List.drop_take]

theorem vbytes_length {b : UartBuffer} (h : b.head ≤ b.data.length) :
    b.vbytes.length = b.head := by
  unfold UartBuffer.vbytes
  simp only [List.length_take]
  omega

/-- A full header-sized window within the valid region is the same whether
taken from the valid bytes or from the raw array. -/
theorem hwin_vbytes {c : Codec} {b : UartBuffer} {i : Nat}
    (h1 : i + c.headerRawSize ≤ b.head) :
    hwin c b.vbytes i = hwin c b.data i := by
  unfold hwin UartBuffer.vbytes
  rw [List.drop_take, List.take_take]
  congr 1
  omega

/-! ### The header scan loop -/

theorem findValidHeader_eq_some {c : Codec} {d : List Nat} {k : Nat} :
    ∀ (start m : Nat), start ≤ k → k < start + m →
      (∀ i, start ≤ i → i < k → validate_header c (hwin c d i) = false) →
      validate_header c (hwin c d k) = true →
      findValidHeader c d start m = some k := by
  intro start m
  induction m generalizing start with
  | zero => intro h1 h2; omega
  | succ m ih =>
    intro h1 h2 hbad hgood
    unfold findValidHeader
    by_cases hs : start = k
    · subst hs
      simp [hgood]
    · have hlt : start < k := lt_of_le_of_ne h1 hs
      rw [hbad start le_rfl hlt]
      simp only [Bool.false_eq_true, if_false]
      exact ih (start + 1) hlt (by omega) (fun i hi => hbad i (by omega)) hgood

theorem findValidHeader_eq_none {c : Codec} {d : List Nat} :
    ∀ (start m : Nat),
      (∀ i, start ≤ i → i < start + m → validate_header c (hwin c d i) = false) →
      findValidHeader c d start m = none := by
  intro start m
  induction m generalizing start with
  | zero => intro _; rfl
  | succ m ih =>
    intro hbad
    unfold findValidHeader
    rw [hbad start le_rfl (by omega)]
    simp only [Bool.false_eq_true, if_false]
    exact ih (start + 1) (fun i hi hi2 => hbad i (by omega) (by omega))

theorem findValidHeader_some_bounds {c : Codec} {d : List Nat} :
    ∀ (start m k : Nat), findValidHeader c d start m = some k →
      start ≤ k ∧ k < start + m ∧ validate_header c (hwin c d k) = true := by
  intro start m
  induction m generalizing start with
  | zero => intro k h; exact absurd h (by simp [findValidHeader])
  | succ m ih =>
    intro k h
    unfold findValidHeader at h
    by_cases hv : validate_header c (hwin c d start) = true
    · rw [if_pos hv] at h
      obtain rfl : start = k := Option.some_injective _ h
      exact ⟨le_rfl, by omega, hv⟩
    · rw [if_neg hv] at h
      obtain ⟨h1, h2, h3⟩ := ih (start + 1) k h
      exact ⟨by omega, by omega, h3⟩

/-! ### Behaviour of `header_re_synch` -/

theorem header_re_synch_short {c : Codec} {b : UartBuffer}
    (h : b.head < c.headerRawSize) : header_re_synch c b = (false, b) := by
  simp [header_re_synch, h]

/-- If the first validating offset in the buffered bytes is `k`, the resync
pass discards exactly the `k` leading bytes. -/
theorem header_re_synch_found {c : Codec} {b : UartBuffer} {k : Nat}
    (hlen : b.head ≤ b.data.length)
    (hk : k + c.headerRawSize ≤ b.head)
    (hbad : ∀ i, i < k → validate_header c (hwin c b.data i) = false)
    (hgood : validate_header c (hwin c b.data k) = true) :
    ∃ b', header_re_synch c b = (true, b') ∧
      b'.head = b.head - k ∧ b'.vbytes = b.vbytes.drop k ∧
      b'.data.length = b.data.length := by
  have hpos := c.headerRawSize_pos
  have hge : ¬ b.head < c.headerRawSize := by omega
  have hfind : findValidHeader c b.data 0 (b.head - c.headerRawSize + 1) = some k :=
    findValidHeader_eq_some 0 _ (Nat.zero_le k) (by omega)
      (fun i _ hik => hbad i hik) hgood
  by_cases hk0 : k = 0
  · subst hk0
    refine ⟨b, ?_, by omega, by simp, rfl⟩
    simp [header_re_synch, if_neg hge, hfind]
  · refine ⟨⟨memmoveFront b.data k (b.head - k), b.head - k⟩, ?_, rfl, ?_, ?_⟩
    · simp [header_re_synch, if_neg hge, hfind, if_neg hk0]
    · rw [vbytes_memmoveFront (show k + (b.head - k) ≤ b.data.length by omega),
        vbytes_drop]
    · exact memmoveFront_length (show k + (b.head - k) ≤ b.data.length by omega)

/-- If no full window in the buffered bytes validates, the resync pass keeps
exactly the last `headerRawSize - 1` bytes. -/
theorem header_re_synch_notfound {c : Codec} {b : UartBuffer}
    (hlen : b.head ≤ b.data.length) (hge : c.headerRawSize ≤ b.head)
    (hbad : ∀ i, i + c.headerRawSize ≤ b.head →
      validate_header c (hwin c b.data i) = false) :
    ∃ b', header_re_synch c b = (false, b') ∧
      b'.head = c.headerRawSize - 1 ∧
      b'.vbytes = b.vbytes.drop (b.head - (c.headerRawSize - 1)) ∧
      b'.data.length = b.data.length := by
  have hpos := c.headerRawSize_pos
  have hfind : findValidHeader c b.data 0 (b.head - c.headerRawSize + 1) = none :=
    findValidHeader_eq_none 0 _ (fun i _ h2 => hbad i (by omega))
  have hmm : b.head - c.headerRawSize + 1 + (c.headerRawSize - 1) ≤ b.data.length := by
    omega
  refine ⟨⟨memmoveFront b.data (b.head - c.headerRawSize + 1) (c.headerRawSize - 1),
      c.headerRawSize - 1⟩, ?_, rfl, ?_, memmoveFront_length hmm⟩
  · simp [header_re_synch, if_neg (show ¬ b.head < c.headerRawSize by omega), hfind]
  · rw [vbytes_memmoveFront hmm, vbytes_drop,
      show b.head - c.headerRawSize + 1 = b.head - (c.headerRawSize - 1) by omega]
    congr 1
    omega

/-- Every resync pass retains a suffix of the buffered bytes, moved to
offset 0: the cursor drops by some `k` and the retained valid bytes are the
old valid bytes with the `k` leading ones discarded. -/
theorem header_re_synch_generic {c : Codec} {b : UartBuffer}
    (hlen : b.head ≤ b.data.length) :
    ∃ k, k ≤ b.head ∧ (header_re_synch c b).2.head = b.head - k ∧
      (header_re_synch c b).2.vbytes = b.vbytes.drop k ∧
      (header_re_synch c b).2.data.length = b.data.length := by
  have hpos := c.headerRawSize_pos
  by_cases hsh : b.head < c.headerRawSize
  · rw [header_re_synch_short hsh]
    exact ⟨0, by omega, by simp, by simp, rfl⟩
  · rcases hfind : findValidHeader c b.data 0 (b.head - c.headerRawSize + 1) with _ | i
    · have hmm : b.head - c.headerRawSize + 1 + (c.headerRawSize - 1) ≤ b.data.length := by
        omega
      have heq : header_re_synch c b =
          (false, ⟨memmoveFront b.data (b.head - c.headerRawSize + 1)
            (c.headerRawSize - 1), c.headerRawSize - 1⟩) := by
        simp [header_re_synch, if_neg hsh, hfind]
      refine ⟨b.head - (c.headerRawSize - 1), by omega, ?_, ?_, ?_⟩
      · rw [heq]; show c.headerRawSize - 1 = _; omega
      · rw [heq]
        show (UartBuffer.mk _ _).vbytes = _
        rw [vbytes_memmoveFront hmm, vbytes_drop,
          show b.head - c.headerRawSize + 1 = b.head - (c.headerRawSize - 1) by omega]
        congr 1
        omega
      · rw [heq]; exact memmoveFront_length hmm
    · obtain ⟨-, hiub, -⟩ := findValidHeader_some_bounds 0 _ i hfind
      by_cases hi0 : i = 0
      · subst hi0
        have heq : header_re_synch c b = (true, b) := by
          simp [header_re_synch, if_neg hsh, hfind]
        exact ⟨0, by omega, by rw [heq]; simp, by rw [heq]; simp, by rw [heq]⟩
      · have hmm : i + (b.head - i) ≤ b.data.length := by omega
        have heq : header_re_synch c b =
            (true, ⟨memmoveFront b.data i (b.head - i), b.head - i⟩) := by
          simp [header_re_synch, if_neg hsh, hfind, if_neg hi0]
        refine ⟨i, by omega, by rw [heq], ?_, by rw [heq]; exact memmoveFront_length hmm⟩
        rw [heq]
        show (UartBuffer.mk _ _).vbytes = _
        rw [vbytes_memmoveFront hmm, vbytes_drop]

/-- The resync pass never grows the cursor. -/
theorem header_re_synch_head_le {c : Codec} {b : UartBuffer} :
    (header_re_synch c b).2.head ≤ b.head := by
  have hpos := c.headerRawSize_pos
  by_cases hsh : b.head < c.headerRawSize
  · rw [header_re_synch_short hsh]
  · rcases hfind : findValidHeader c b.data 0 (b.head - c.headerRawSize + 1) with _ | i
    · have heq : header_re_synch c b =
          (false, ⟨memmoveFront b.data (b.head - c.headerRawSize + 1)
            (c.headerRawSize - 1), c.headerRawSize - 1⟩) := by
        simp [header_re_synch, if_neg hsh, hfind]
      rw [heq]
      show c.headerRawSize - 1 ≤ b.head
      omega
    · by_cases hi0 : i = 0
      · subst hi0
        have heq : header_re_synch c b = (true, b) := by
          simp [header_re_synch, if_neg hsh, hfind]
        rw [heq]
      · have heq : header_re_synch c b =
            (true, ⟨memmoveFront b.data i (b.head - i), b.head - i⟩) := by
          simp [header_re_synch, if_neg hsh, hfind, if_neg hi0]
        rw [heq]
        show b.head - i ≤ b.head
        omega

/-! ### Behaviour of `delimit_and_push_frames_to_core` -/

theorem delimit_short {c : Codec} {b : UartBuffer}
    (h : b.head < c.headerRawSize) :
    delimit_and_push_frames_to_core c b = (none, b) := by
  simp [delimit_and_push_frames_to_core, h]

theorem delimit_insufficient {c : Codec} {b : UartBuffer}
    (hge : c.headerRawSize ≤ b.head)
    (hfs : b.head < c.getLength (hwin c b.data 0) + c.headerRawSize) :
    delimit_and_push_frames_to_core c b = (none, b) := by
  unfold delimit_and_push_frames_to_core
  rw [if_neg (by omega), if_pos (by omega)]

theorem delimit_emit {c : Codec} {b : UartBuffer}
    (hlen : b.head ≤ b.data.length)
    (hfs : c.getLength (hwin c b.data 0) + c.headerRawSize ≤ b.head) :
    ∃ b', delimit_and_push_frames_to_core c b =
        (some (b.vbytes.take (c.getLength (hwin c b.data 0) + c.headerRawSize)), b') ∧
      b'.head = b.head - (c.getLength (hwin c b.data 0) + c.headerRawSize) ∧
      b'.vbytes = b.vbytes.drop (c.getLength (hwin c b.data 0) + c.headerRawSize) ∧
      b'.data.length = b.data.length := by
  have hpos := c.headerRawSize_pos
  have hmm : c.getLength (hwin c b.data 0) + c.headerRawSize +
      (b.head - (c.getLength (hwin c b.data 0) + c.headerRawSize)) ≤ b.data.length := by
    omega
  have hfr : b.data.take (c.getLength (hwin c b.data 0) + c.headerRawSize) =
      b.vbytes.take (c.getLength (hwin c b.data 0) + c.headerRawSize) := by
    unfold UartBuffer.vbytes
    rw [List.take_take, Nat.min_eq_left hfs]
  have heq : delimit_and_push_frames_to_core c b =
      (some (b.data.take (c.getLength (hwin c b.data 0) + c.headerRawSize)),
       ⟨memmoveFront b.data (c.getLength (hwin c b.data 0) + c.headerRawSize)
          (b.head - (c.getLength (hwin c b.data 0) + c.headerRawSize)),
        b.head - (c.getLength (hwin c b.data 0) + c.headerRawSize)⟩) := by
    unfold delimit_and_push_frames_to_core
    rw [if_neg (show ¬ b.head < c.headerRawSize by omega),
      if_neg (show ¬ c.getLength (hwin c b.data 0) + c.headerRawSize > b.head by omega)]
  rw [heq, hfr]
  refine ⟨_, rfl, rfl, ?_, memmoveFront_length hmm⟩
  show (UartBuffer.mk _ _).vbytes = _
  rw [vbytes_memmoveFront hmm, vbytes_drop]

/-- Every delimiting pass retains a suffix of the buffered bytes, moved to
offset 0. -/
theorem delimit_generic {c : Codec} {b : UartBuffer}
    (hlen : b.head ≤ b.data.length) :
    ∃ k, k ≤ b.head ∧ (delimit_and_push_frames_to_core c b).2.head = b.head - k ∧
      (delimit_and_push_frames_to_core c b).2.vbytes = b.vbytes.drop k ∧
      (delimit_and_push_frames_to_core c b).2.data.length = b.data.length := by
  have hpos := c.headerRawSize_pos
  by_cases hsh : b.head < c.headerRawSize
  · rw [delimit_short hsh]
    exact ⟨0, by omega, by simp, by simp, rfl⟩
  · by_cases hfs : b.head < c.getLength (hwin c b.data 0) + c.headerRawSize
    · rw [delimit_insufficient (by omega) hfs]
      exact ⟨0, by omega, by simp, by simp, rfl⟩
    · obtain ⟨b', heq, h1, h2, h3⟩ := delimit_emit hlen
        (show c.getLength (hwin c b.data 0) + c.headerRawSize ≤ b.head by omega)
      rw [heq]
      exact ⟨c.getLength (hwin c b.data 0) + c.headerRawSize, by omega, h1, h2, h3⟩

/-- A delimiting pass that emits a frame shrinks the cursor by at least a
header size. -/
theorem delimit_some_progress {c : Codec} {b : UartBuffer} {f : List Nat}
    {b' : UartBuffer}
    (h : delimit_and_push_frames_to_core c b = (some f, b')) :
    b'.head + c.headerRawSize ≤ b.head := by
  unfold delimit_and_push_frames_to_core at h
  by_cases hsh : b.head < c.headerRawSize
  · rw [if_pos hsh] at h
    simp at h
  · rw [if_neg hsh] at h
    by_cases hfs : c.getLength (hwin c b.data 0) + c.headerRawSize > b.head
    · rw [if_pos hfs] at h
      simp at h
    · rw [if_neg hfs] at h
      injection h with h1 h2
      subst h2
      show b.head - (c.getLength (hwin c b.data 0) + c.headerRawSize) +
        c.headerRawSize ≤ b.head
      omega

theorem delimit_head_le {c : Codec} {b : UartBuffer} :
    (delimit_and_push_frames_to_core c b).2.head ≤ b.head := by
  have hpos := c.headerRawSize_pos
  by_cases hsh : b.head < c.headerRawSize
  · rw [delimit_short hsh]
  · by_cases hfs : b.head < c.getLength (hwin c b.data 0) + c.headerRawSize
    · rw [delimit_insufficient (by omega) hfs]
    · have heq : delimit_and_push_frames_to_core c b =
          (some (b.data.take (c.getLength (hwin c b.data 0) + c.headerRawSize)),
           ⟨memmoveFront b.data (c.getLength (hwin c b.data 0) + c.headerRawSize)
              (b.head - (c.getLength (hwin c b.data 0) + c.headerRawSize)),
            b.head - (c.getLength (hwin c b.data 0) + c.headerRawSize)⟩) := by
        unfold delimit_and_push_frames_to_core
        rw [if_neg (show ¬ b.head < c.headerRawSize by omega),
      if_neg (show ¬ c.getLength (hwin c b.data 0) + c.headerRawSize > b.head by omega)]
      rw [heq]
      show b.head - (c.getLength (hwin c b.data 0) + c.headerRawSize) ≤ b.head
      omega

/-! ### The processing loop -/

/-- The processing loop returns within the fuel bound `2 * head + 1` for the
header state and `2 * head` for the payload state: each round trip through
both states shrinks the cursor by at least one header size. -/
theorem process_loop_isSome {c : Codec} :
    ∀ (fuel : Nat) (st : SyncState) (b : UartBuffer),
      (match st with
       | .EXPECTING_HEADER => 2 * b.head + 1
       | .EXPECTING_PAYLOAD => 2 * b.head) < fuel →
      (process_loop c fuel st b).isSome = true := by
  intro fuel
  induction fuel with
  | zero => intro st b h; rcases st <;> omega
  | succ fuel ih =>
    intro st b h
    rcases st with _ | _
    · rcases hrs : header_re_synch c b with ⟨found, b'⟩
      have hle : b'.head ≤ b.head := by
        have := @header_re_synch_head_le c b
        rw [hrs] at this
        exact this
      rcases found with _ | _
      · simp [process_loop, hrs]
      · simp only [process_loop, hrs]
        exact ih .EXPECTING_PAYLOAD b' (show 2 * b'.head < fuel by simp at h; omega)
    · rcases hd : delimit_and_push_frames_to_core c b with ⟨of, b'⟩
      rcases of with _ | f
      · simp [process_loop, hd]
      · have hprog : b'.head + c.headerRawSize ≤ b.head := delimit_some_progress hd
        have hpos := c.headerRawSize_pos
        simp only [process_loop, hd, Option.isSome_map']
        exact ih .EXPECTING_HEADER b'
          (show 2 * b'.head + 1 < fuel by simp at h; omega)

/-! ### Appending received bytes -/

theorem writeAt_length {d : List Nat} {pos : Nat} {src : List Nat}
    (h : pos + src.length ≤ d.length) :
    (writeAt d pos src).length = d.length := by
  simp only [writeAt, List.length_append, List.length_take, List.length_drop]
  omega

theorem writeAt_vbytes {d : List Nat} {pos : Nat} {src : List Nat}
    (h : pos + src.length ≤ d.length) :
    (UartBuffer.mk (writeAt d pos src) (pos + src.length)).vbytes =
      d.take pos ++ src := by
  unfold UartBuffer.vbytes writeAt
  dsimp only
  apply List.take_left'
  simp only [List.length_append, List.length_take]
  omega

/-- With a nonempty incoming queue, the append clamps the read to the
remaining space and never aborts. -/
theorem read_and_append_eq {incoming : List Nat} {b : UartBuffer} {size : Nat}
    (hne : incoming.length ≠ 0) :
    read_and_append_uart_received_data incoming b size =
      some (min incoming.length (size - b.head),
        ⟨writeAt b.data b.head (incoming.take (min incoming.length (size - b.head))),
         b.head + min incoming.length (size - b.head)⟩) := by
  have hmin : (if incoming.length < size - b.head then incoming.length
      else size - b.head) = min incoming.length (size - b.head) := by
    split_ifs <;> omega
  unfold read_and_append_uart_received_data
  rw [if_neg hne]
  simp only [hmin]

/-- Full characterization of a successful append: the count is clamped to
the remaining space, and the valid region is extended in place. -/
theorem read_and_append_spec {incoming : List Nat} {b : UartBuffer} {size : Nat}
    (hne : incoming.length ≠ 0) (hhead : b.head ≤ size) (hlen : b.data.length = size) :
    ∃ n b1, read_and_append_uart_received_data incoming b size = some (n, b1) ∧
      n = min incoming.length (size - b.head) ∧
      b1.head = b.head + n ∧ b1.head ≤ size ∧ b1.data.length = size ∧
      b1.vbytes = b.vbytes ++ incoming.take n := by
  have hminr : min incoming.length (size - b.head) ≤ size - b.head :=
    Nat.min_le_right _ _
  have htlen : (incoming.take (min incoming.length (size - b.head))).length =
      min incoming.length (size - b.head) := by
    simp only [List.length_take]
    omega
  have hb1 : (UartBuffer.mk
        (writeAt b.data b.head (incoming.take (min incoming.length (size - b.head))))
        (b.head + min incoming.length (size - b.head))) =
      ⟨writeAt b.data b.head (incoming.take (min incoming.length (size - b.head))),
       b.head + (incoming.take (min incoming.length (size - b.head))).length⟩ := by
    rw [htlen]
  rw [read_and_append_eq hne]
  refine ⟨_, _, rfl, rfl, rfl, by dsimp only; omega, ?_, ?_⟩
  · dsimp only
    rw [writeAt_length (by rw [htlen, hlen]; omega)]
    exact hlen
  · rw [hb1, writeAt_vbytes (by rw [htlen, hlen]; omega)]
    rfl

/-! ### Single steps of the processing loop -/

theorem process_loop_header_false {c : Codec} {b b' : UartBuffer} {fuel : Nat}
    (h : header_re_synch c b = (false, b')) (hf : 0 < fuel) :
    process_loop c fuel .EXPECTING_HEADER b = some (.EXPECTING_HEADER, b', []) := by
  rcases fuel with _ | f
  · omega
  · simp [process_loop, h]

theorem process_loop_header_true {c : Codec} {b b2 : UartBuffer} {fuel : Nat}
    (h : header_re_synch c b = (true, b2)) (hf : 0 < fuel) :
    process_loop c fuel .EXPECTING_HEADER b =
      process_loop c (fuel - 1) .EXPECTING_PAYLOAD b2 := by
  rcases fuel with _ | f
  · omega
  · simp [process_loop, h]

theorem process_loop_payload_none {c : Codec} {b b' : UartBuffer} {fuel : Nat}
    (h : delimit_and_push_frames_to_core c b = (none, b')) (hf : 0 < fuel) :
    process_loop c fuel .EXPECTING_PAYLOAD b = some (.EXPECTING_PAYLOAD, b', []) := by
  rcases fuel with _ | f
  · omega
  · simp [process_loop, h]

theorem process_loop_payload_some {c : Codec} {b b' : UartBuffer} {f : List Nat}
    {fuel : Nat}
    (h : delimit_and_push_frames_to_core c b = (some f, b')) (hf : 0 < fuel) :
    process_loop c fuel .EXPECTING_PAYLOAD b =
      (process_loop c (fuel - 1) .EXPECTING_HEADER b').map
        fun r => (r.1, r.2.1, f :: r.2.2) := by
  rcases fuel with _ | fl
  · omega
  · simp [process_loop, h]

/-! ### Windows of slices -/

theorem hwin_drop {c : Codec} {S : List Nat} {d i : Nat} :
    hwin c (S.drop d) i = hwin c S (d + i) := by
  unfold hwin
  rw [List.drop_drop]

theorem hwin_take_drop {c : Codec} {S : List Nat} {m d i : Nat}
    (h : d + i + c.headerRawSize ≤ m) :
    hwin c ((S.take m).drop d) i = hwin c S (d + i) := by
  unfold hwin
  rw [List.drop_drop, List.drop_take, List.take_take]
  congr 1
  omega

/-! ### Chunked feeding through the garbage region -/

/-- Feeding one more chunk while the single header of `S` is still
incomplete: the pass reports no progress, stays in `SEEKING_HEADER`, and the
buffer keeps exactly the suffix of the fed bytes that could still start a
header. -/
theorem feed_garbage_step {c : Codec} {S : List Nat} {k : Nat}
    (hS : S.length = k + c.headerRawSize)
    (hbad : ∀ i, i < k → validate_header c (hwin c S i) = false)
    {p q : Nat} {b : UartBuffer}
    (hqcap : q + (c.headerRawSize - 1) ≤ UART_BUFFER_SIZE c)
    (hq : 0 < q) (hpq : p + q < S.length)
    (hblen : b.data.length = UART_BUFFER_SIZE c)
    (hhead : b.head = min p (c.headerRawSize - 1))
    (hvb : b.vbytes = (S.take p).drop (p - b.head)) :
    ∃ b', driver_uart_process_uart c (2 * (b.head + ((S.drop p).take q).length) + 2)
        ((S.drop p).take q) .EXPECTING_HEADER b = some (.EXPECTING_HEADER, b', []) ∧
      b'.data.length = UART_BUFFER_SIZE c ∧
      b'.head = min (p + q) (c.headerRawSize - 1) ∧
      b'.vbytes = (S.take (p + q)).drop (p + q - b'.head) := by
  have hpos := c.headerRawSize_pos
  have hcap : c.headerRawSize ≤ UART_BUFFER_SIZE c := by
    unfold UART_BUFFER_SIZE
    omega
  have hql : ((S.drop p).take q).length = q := by
    simp only [List.length_take, List.length_drop]
    omega
  have hhle : b.head ≤ c.headerRawSize - 1 := by omega
  have hhp : b.head ≤ p := by omega
  obtain ⟨n, b1, happ, hn, hh1, hle1, hlen1, hvb1⟩ :=
    @read_and_append_spec ((S.drop p).take q) b (UART_BUFFER_SIZE c)
      (by rw [hql]; omega) (by omega) hblen
  have hnq : n = q := by
    rw [hn, hql]
    have : b.head + q ≤ UART_BUFFER_SIZE c := by omega
    omega
  subst hnq
  have htake_self : ((S.drop p).take n).take n = (S.drop p).take n :=
    List.take_of_length_le (by omega)
  have hh1' : b1.head = b.head + n := hh1
  have hvb1' : b1.vbytes = (S.take (p + n)).drop (p + n - b1.head) := by
    rw [hvb1, hvb, htake_self, List.take_add S p n,
      List.drop_append_of_le_length
        (show p + n - b1.head ≤ (S.take p).length by
          simp only [List.length_take]
          omega)]
    congr 2
    omega
  have hfuel : 0 < 2 * (b.head + ((S.drop p).take n).length) + 2 := by omega
  have hproc : driver_uart_process_uart c
      (2 * (b.head + ((S.drop p).take n).length) + 2) ((S.drop p).take n)
      .EXPECTING_HEADER b =
    process_loop c (2 * (b.head + ((S.drop p).take n).length) + 2)
      .EXPECTING_HEADER b1 := by
    simp only [driver_uart_process_uart, happ]
  rw [hproc]
  by_cases hsh : b1.head < c.headerRawSize
  · have hrs := @header_re_synch_short c b1 hsh
    rw [process_loop_header_false hrs hfuel]
    refine ⟨b1, rfl, hlen1, by omega, by rw [hvb1']⟩
  · have hb1len : b1.head ≤ b1.data.length := by
      rw [hlen1]
      omega
    have hwinbad : ∀ i, i + c.headerRawSize ≤ b1.head →
        validate_header c (hwin c b1.data i) = false := by
      intro i hi
      rw [← hwin_vbytes hi, hvb1', hwin_take_drop (by omega)]
      exact hbad _ (by omega)
    obtain ⟨b', hrs, hh', hvb', hlen'⟩ :=
      header_re_synch_notfound hb1len (by omega) hwinbad
    rw [process_loop_header_false hrs hfuel]
    refine ⟨b', rfl, hlen'.trans hlen1, by omega, ?_⟩
    rw [hvb', hvb1', List.drop_drop, hh']
    congr 1
    omega

/-- Feeding the final chunk, which completes the header: the pass discards
everything before the header and synchronizes on it.  If the header
announces a nonzero payload the pass stops in `SEEKING_PAYLOAD` holding
exactly the header, emitting nothing; if it announces a zero-length payload
the header-only frame is emitted at once and the pass returns to
`SEEKING_HEADER` with an empty buffer. -/
theorem feed_final_step {c : Codec} {S : List Nat} {k : Nat}
    (hS : S.length = k + c.headerRawSize)
    (hbad : ∀ i, i < k → validate_header c (hwin c S i) = false)
    (hgood : validate_header c (hwin c S k) = true)
    {p q : Nat} {b : UartBuffer}
    (hqcap : q + (c.headerRawSize - 1) ≤ UART_BUFFER_SIZE c)
    (hq : 0 < q) (hpq : p + q = S.length)
    (hblen : b.data.length = UART_BUFFER_SIZE c)
    (hhead : b.head = min p (c.headerRawSize - 1))
    (hvb : b.vbytes = (S.take p).drop (p - b.head)) :
    ∃ b2, b2.data.length = UART_BUFFER_SIZE c ∧
      ((0 < c.getLength (hwin c S k) ∧
        driver_uart_process_uart c (2 * (b.head + ((S.drop p).take q).length) + 2)
          ((S.drop p).take q) .EXPECTING_HEADER b =
          some (.EXPECTING_PAYLOAD, b2, []) ∧
        b2.vbytes = S.drop k ∧ b2.head = c.headerRawSize) ∨
       (c.getLength (hwin c S k) = 0 ∧
        driver_uart_process_uart c (2 * (b.head + ((S.drop p).take q).length) + 2)
          ((S.drop p).take q) .EXPECTING_HEADER b =
          some (.EXPECTING_HEADER, b2, [S.drop k]) ∧
        b2.vbytes = [] ∧ b2.head = 0)) := by
  have hpos := c.headerRawSize_pos
  have hcap : c.headerRawSize ≤ UART_BUFFER_SIZE c := by
    unfold UART_BUFFER_SIZE
    omega
  have hql : ((S.drop p).take q).length = q := by
    simp only [List.length_take, List.length_drop]
    omega
  have hhle : b.head ≤ c.headerRawSize - 1 := by omega
  have hhp : b.head ≤ p := by omega
  obtain ⟨n, b1, happ, hn, hh1, hle1, hlen1, hvb1⟩ :=
    @read_and_append_spec ((S.drop p).take q) b (UART_BUFFER_SIZE c)
      (by rw [hql]; omega) (by omega) hblen
  have hnq : n = q := by
    rw [hn, hql]
    have : b.head + q ≤ UART_BUFFER_SIZE c := by omega
    omega
  subst hnq
  have htake_self : ((S.drop p).take n).take n = (S.drop p).take n :=
    List.take_of_length_le (by omega)
  have hvb1' : b1.vbytes = (S.take (p + n)).drop (p + n - b1.head) := by
    rw [hvb1, hvb, htake_self, List.take_add S p n,
      List.drop_append_of_le_length
        (show p + n - b1.head ≤ (S.take p).length by
          simp only [List.length_take]
          omega)]
    congr 2
    omega
  have hvbS : b1.vbytes = S.drop (S.length - b1.head) := by
    rw [hvb1', hpq, List.take_length]
  have hd_le : S.length - b1.head ≤ k := by omega
  have hhge : c.headerRawSize ≤ b1.head := by omega
  have hb1len : b1.head ≤ b1.data.length := by
    rw [hlen1]
    omega
  have hwk : (k - (S.length - b1.head)) + c.headerRawSize ≤ b1.head := by omega
  have hbad1 : ∀ i, i < k - (S.length - b1.head) →
      validate_header c (hwin c b1.data i) = false := by
    intro i hi
    rw [← hwin_vbytes (by omega), hvbS, hwin_drop]
    exact hbad _ (by omega)
  have hgood1 : validate_header c
      (hwin c b1.data (k - (S.length - b1.head))) = true := by
    rw [← hwin_vbytes (by omega), hvbS, hwin_drop,
      show S.length - b1.head + (k - (S.length - b1.head)) = k by omega]
    exact hgood
  obtain ⟨b2, hrs, hh2, hvb2, hlen2⟩ :=
    header_re_synch_found hb1len hwk hbad1 hgood1
  have hh2' : b2.head = c.headerRawSize := by omega
  have hvb2' : b2.vbytes = S.drop k := by
    rw [hvb2, hvbS, List.drop_drop,
      show S.length - b1.head + (k - (S.length - b1.head)) = k by omega]
  have hb2len : b2.head ≤ b2.data.length := by
    rw [hlen2, hlen1, hh2']
    omega
  have hwinSk : hwin c S k = S.drop k := by
    unfold hwin
    exact List.take_of_length_le (by simp only [List.length_drop]; omega)
  have hwin0 : hwin c b2.data 0 = S.drop k := by
    have hwv : hwin c b2.data 0 = b2.vbytes := by
      unfold hwin UartBuffer.vbytes
      rw [List.drop_zero, hh2']
    rw [hwv, hvb2']
  have hfuel : 0 < 2 * (b.head + ((S.drop p).take n).length) + 2 := by omega
  have hproc : driver_uart_process_uart c
      (2 * (b.head + ((S.drop p).take n).length) + 2) ((S.drop p).take n)
      .EXPECTING_HEADER b =
    process_loop c (2 * (b.head + ((S.drop p).take n).length) + 2)
      .EXPECTING_HEADER b1 := by
    simp only [driver_uart_process_uart, happ]
  by_cases hpl0 : c.getLength (hwin c S k) = 0
  · have hgl0 : c.getLength (hwin c b2.data 0) = 0 := by
      rw [hwin0, ← hwinSk]
      exact hpl0
    obtain ⟨b3, hdel, hh3, hv3, hlen3⟩ := delimit_emit hb2len (by rw [hgl0]; omega)
    have hfr : b2.vbytes.take (c.getLength (hwin c b2.data 0) + c.headerRawSize) =
        S.drop k := by
      rw [hgl0, Nat.zero_add, hvb2']
      exact List.take_of_length_le (by simp only [List.length_drop]; omega)
    have hh3' : b3.head = 0 := by
      rw [hh3, hgl0, hh2']
      omega
    have hv3' : b3.vbytes = [] := by
      rw [hv3, hgl0, Nat.zero_add, hvb2']
      exact List.drop_eq_nil_of_le (by simp only [List.length_drop]; omega)
    have hrs3 := @header_re_synch_short c b3
      (show b3.head < c.headerRawSize by omega)
    refine ⟨b3, hlen3.trans (hlen2.trans hlen1), Or.inr ⟨hpl0, ?_, hv3', hh3'⟩⟩
    rw [hproc, process_loop_header_true hrs hfuel,
      process_loop_payload_some hdel (by omega),
      process_loop_header_false hrs3 (by omega)]
    simp [hfr]
  · have hdelim : delimit_and_push_frames_to_core c b2 = (none, b2) := by
      have hplk : 0 < c.getLength (S.drop k) := by
        rw [← hwinSk]
        omega
      apply delimit_insufficient (by omega)
      rw [hwin0, hh2']
      omega
    refine ⟨b2, hlen2.trans hlen1, Or.inl ⟨by omega, ?_, hvb2', hh2'⟩⟩
    rw [hproc, process_loop_header_true hrs hfuel,
      process_loop_payload_none hdelim (by omega)]

theorem feed_chunks_cons_some {c : Codec} {ch : List Nat} {rest : List (List Nat)}
    {st st' : SyncState} {b b' : UartBuffer} {fs : List (List Nat)}
    (h : driver_uart_process_uart c (2 * (b.head + ch.length) + 2) ch st b =
      some (st', b', fs)) :
    feed_chunks c (ch :: rest) st b =
      (feed_chunks c rest st' b').map fun r => (r.1, r.2.1, fs ++ r.2.2) := by
  simp [feed_chunks, h]

/-- Feeding the remaining chunks of `S` from any intermediate suffix state
reaches synchronization exactly at the single valid header of `S`: the
process either ends holding exactly the header in `SEEKING_PAYLOAD` (the
header announces a nonzero payload) or emits the header-only frame and ends
empty in `SEEKING_HEADER` (zero-length payload).  Each chunk is bounded by
the buffer space always free at a wake, which is the read granularity the
driver itself enforces by clamping. -/
theorem feed_chunks_synch {c : Codec} {S : List Nat} {k : Nat}
    (hS : S.length = k + c.headerRawSize)
    (hbad : ∀ i, i < k → validate_header c (hwin c S i) = false)
    (hgood : validate_header c (hwin c S k) = true) :
    ∀ (chunks : List (List Nat)) (p : Nat) (b : UartBuffer),
      (∀ ch ∈ chunks, ch ≠ []) → chunks ≠ [] →
      (∀ ch ∈ chunks, ch.length + (c.headerRawSize - 1) ≤ UART_BUFFER_SIZE c) →
      chunks.flatten = S.drop p → p ≤ S.length →
      b.data.length = UART_BUFFER_SIZE c →
      b.head = min p (c.headerRawSize - 1) →
      b.vbytes = (S.take p).drop (p - b.head) →
      ∃ b2, b2.data.length = UART_BUFFER_SIZE c ∧
        ((0 < c.getLength (hwin c S k) ∧
          feed_chunks c chunks .EXPECTING_HEADER b =
            some (.EXPECTING_PAYLOAD, b2, []) ∧
          b2.vbytes = S.drop k ∧ b2.head = c.headerRawSize) ∨
         (c.getLength (hwin c S k) = 0 ∧
          feed_chunks c chunks .EXPECTING_HEADER b =
            some (.EXPECTING_HEADER, b2, [S.drop k]) ∧
          b2.vbytes = [] ∧ b2.head = 0)) := by
  intro chunks
  induction chunks with
  | nil => intro p b _ hne _ _ _ _ _ _; exact absurd rfl hne
  | cons ch rest ih =>
    intro p b hchne _ hchcap hflat hple hblen hhead hvb
    have hchne1 : ch ≠ [] := hchne ch (List.mem_cons_self ch rest)
    have hq : 0 < ch.length := List.length_pos.mpr hchne1
    have hqcap : ch.length + (c.headerRawSize - 1) ≤ UART_BUFFER_SIZE c :=
      hchcap ch (List.mem_cons_self ch rest)
    have hflat' : ch ++ rest.flatten = S.drop p := by
      rw [← hflat]
      rfl
    have hch_eq : ch = (S.drop p).take ch.length := by
      rw [← hflat']
      exact (List.take_left' rfl).symm
    have hrest : rest.flatten = S.drop (p + ch.length) := by
      have h1 : (ch ++ rest.flatten).drop ch.length = rest.flatten :=
        List.drop_left' rfl
      rw [hflat', List.drop_drop] at h1
      exact h1.symm
    rcases rest with _ | ⟨ch2, rest2⟩
    · have hchS : ch.length = S.length - p := by
        have : ch = S.drop p := by simpa using hflat'
        rw [this, List.length_drop]
      have hlen_eq : p + ch.length = S.length := by omega
      obtain ⟨b2, hl2, hcase⟩ :=
        feed_final_step hS hbad hgood hqcap hq hlen_eq hblen hhead hvb
      rcases hcase with ⟨hgl, hstep, hv2, hh2⟩ | ⟨hgl, hstep, hv2, hh2⟩
      · have hstep' : driver_uart_process_uart c (2 * (b.head + ch.length) + 2) ch
            .EXPECTING_HEADER b = some (.EXPECTING_PAYLOAD, b2, []) := by
          rw [hch_eq]
          exact hstep
        refine ⟨b2, hl2, Or.inl ⟨hgl, ?_, hv2, hh2⟩⟩
        rw [feed_chunks_cons_some hstep']
        simp [feed_chunks]
      · have hstep' : driver_uart_process_uart c (2 * (b.head + ch.length) + 2) ch
            .EXPECTING_HEADER b = some (.EXPECTING_HEADER, b2, [S.drop k]) := by
          rw [hch_eq]
          exact hstep
        refine ⟨b2, hl2, Or.inr ⟨hgl, ?_, hv2, hh2⟩⟩
        rw [feed_chunks_cons_some hstep']
        simp [feed_chunks]
    · have hrestne : (List.flatten (ch2 :: rest2)).length ≠ 0 := by
        have hch2 : ch2 ≠ [] := hchne ch2 (by simp)
        have : 0 < ch2.length := List.length_pos.mpr hch2
        simp only [List.flatten_cons, List.length_append]
        omega
      have hpq : p + ch.length < S.length := by
        have h2 : (S.drop p).length = ch.length + (List.flatten (ch2 :: rest2)).length := by
          rw [← hflat']
          simp
        rw [List.length_drop] at h2
        omega
      obtain ⟨b', hstep, hbl', hh', hv'⟩ :=
        feed_garbage_step hS hbad hqcap hq hpq hblen hhead hvb
      obtain ⟨b2, hl2, hcase⟩ := ih (p + ch.length) b'
        (fun d hd => hchne d (List.mem_cons_of_mem _ hd)) (by simp)
        (fun d hd => hchcap d (List.mem_cons_of_mem _ hd)) hrest
        (by omega) hbl' hh' hv'
      have hstep' : driver_uart_process_uart c (2 * (b.head + ch.length) + 2) ch
          .EXPECTING_HEADER b = some (.EXPECTING_HEADER, b', []) := by
        rw [hch_eq]
        exact hstep
      rcases hcase with ⟨hgl, hrec, hv2, hh2⟩ | ⟨hgl, hrec, hv2, hh2⟩
      · refine ⟨b2, hl2, Or.inl ⟨hgl, ?_, hv2, hh2⟩⟩
        rw [feed_chunks_cons_some hstep', hrec]
        simp
      · refine ⟨b2, hl2, Or.inr ⟨hgl, ?_, hv2, hh2⟩⟩
        rw [feed_chunks_cons_some hstep', hrec]
        simp

/-! ### Claim theorems -/

/-- C7: the ingress processing loop always terminates: for every codec,
initial state and buffer content, the alternating header-resynchronization /
payload-delimiting loop returns (reaches a `return` of the C function)
within `2 * head + 2` iterations, because every iteration either reports no
progress or, per compaction, strictly shrinks the buffered-byte count. -/
theorem C7_process_loop_terminates (c : Codec) (st : SyncState) (b : UartBuffer) :
    (process_loop c (2 * b.head + 2) st b).isSome = true := by
  apply process_loop_isSome
  rcases st <;> dsimp only <;> omega

/-- C8: the accumulation-buffer invariant `0 ≤ head ≤ capacity` holds after
every operation (append, header resynchronization, payload delimiting), the
physical array keeps its fixed capacity, and after every operation the
unconsumed bytes begin at offset 0: the append extends the valid region in
place, and each of the two synchronizer passes leaves the retained valid
bytes a suffix of the old valid bytes relocated to the front of the
array. -/
theorem C8_buffer_invariants (c : Codec) (b : UartBuffer) (incoming : List Nat)
    (hlen : b.data.length = UART_BUFFER_SIZE c)
    (hhead : b.head ≤ UART_BUFFER_SIZE c) :
    (incoming ≠ [] →
      ∃ n b1, read_and_append_uart_received_data incoming b (UART_BUFFER_SIZE c) =
          some (n, b1) ∧
        b1.head ≤ UART_BUFFER_SIZE c ∧ b1.data.length = UART_BUFFER_SIZE c ∧
        b1.vbytes = b.vbytes ++ incoming.take n) ∧
    ((header_re_synch c b).2.head ≤ UART_BUFFER_SIZE c ∧
     (header_re_synch c b).2.data.length = UART_BUFFER_SIZE c ∧
     (header_re_synch c b).2.vbytes.IsSuffix b.vbytes) ∧
    ((delimit_and_push_frames_to_core c b).2.head ≤ UART_BUFFER_SIZE c ∧
     (delimit_and_push_frames_to_core c b).2.data.length = UART_BUFFER_SIZE c ∧
     (delimit_and_push_frames_to_core c b).2.vbytes.IsSuffix b.vbytes) := by
  have hlb : b.head ≤ b.data.length := by omega
  refine ⟨?_, ?_, ?_⟩
  · intro hne
    have hne' : incoming.length ≠ 0 := by
      simpa [List.length_eq_zero] using hne
    obtain ⟨n, b1, heq, -, -, hh, hl, hv⟩ := read_and_append_spec hne' hhead hlen
    exact ⟨n, b1, heq, hh, hl, hv⟩
  · obtain ⟨k, hk, h1, h2, h3⟩ := header_re_synch_generic hlb
    exact ⟨by omega, h3.trans hlen, h2 ▸ List.drop_suffix k b.vbytes⟩
  · obtain ⟨k, hk, h1, h2, h3⟩ := delimit_generic hlb
    exact ⟨by omega, h3.trans hlen, h2 ▸ List.drop_suffix k b.vbytes⟩

/-- C8 witness: the invariants instantiated at the test codec, an empty
buffer of full capacity, and a two-byte read. -/
theorem C8_buffer_invariants_witness :
    ∃ n b1, read_and_append_uart_received_data [20, 2]
        ⟨List.replicate (UART_BUFFER_SIZE testCodec) 0, 0⟩ (UART_BUFFER_SIZE testCodec) =
        some (n, b1) ∧ b1.head ≤ UART_BUFFER_SIZE testCodec := by
  have h := C8_buffer_invariants testCodec
    ⟨List.replicate (UART_BUFFER_SIZE testCodec) 0, 0⟩ [20, 2]
    (by simp) (by simp)
  obtain ⟨n, b1, heq, hh, -, -⟩ := h.1 (by decide)
  exact ⟨n, b1, heq, hh⟩

/-- C1: for a byte sequence `S` made of `k` arbitrary leading bytes none
of which starts a valid header, followed by the one valid header (marker
matches and header checksum validates; any announced payload length,
including zero): (a) a resync pass over `S` buffered whole discards
exactly the `k` garbage bytes, compacts the valid header to offset 0,
reduces `head` by `k`, and the loop iteration transitions to
SeekingPayload; (b) feeding `S` in any chunking through the full ingress
path (each read bounded by the buffer space always free at a wake, the
granularity the driver itself enforces by clamping) synchronizes exactly
at the valid header and never emits a garbage byte: with a nonzero
announced payload the process ends in SeekingPayload holding exactly the
header bytes at offset 0; with a zero-length payload the transition to
SeekingPayload is immediately followed by emission of the header-only
frame and return to SeekingHeader with an empty buffer. -/
theorem C1_resync_at_single_header (c : Codec) (S : List Nat) (k : Nat)
    (chunks : List (List Nat)) (b : UartBuffer)
    (hS : S.length = k + c.headerRawSize)
    (hbad : ∀ i, i < k → validate_header c (hwin c S i) = false)
    (hgood : validate_header c (hwin c S k) = true)
    (hvb : b.vbytes = S) (hblen : b.head ≤ b.data.length)
    (hchne : ∀ ch ∈ chunks, ch ≠ []) (hch : chunks ≠ [])
    (hchcap : ∀ ch ∈ chunks,
      ch.length + (c.headerRawSize - 1) ≤ UART_BUFFER_SIZE c)
    (hjoin : chunks.flatten = S) :
    (∃ b1, header_re_synch c b = (true, b1) ∧ b1.head = b.head - k ∧
      b1.vbytes = S.drop k ∧
      process_step c .EXPECTING_HEADER b = (.EXPECTING_PAYLOAD, b1, none, true)) ∧
    (∃ b2, (0 < c.getLength (hwin c S k) ∧
        feed_chunks c chunks .EXPECTING_HEADER
          ⟨List.replicate (UART_BUFFER_SIZE c) 0, 0⟩ =
          some (.EXPECTING_PAYLOAD, b2, []) ∧
        b2.vbytes = S.drop k ∧ b2.head = c.headerRawSize) ∨
      (c.getLength (hwin c S k) = 0 ∧
        feed_chunks c chunks .EXPECTING_HEADER
          ⟨List.replicate (UART_BUFFER_SIZE c) 0, 0⟩ =
          some (.EXPECTING_HEADER, b2, [S.drop k]) ∧
        b2.vbytes = [] ∧ b2.head = 0)) := by
  constructor
  · have hhead : b.head = S.length := by
      have h1 := vbytes_length hblen
      rw [hvb] at h1
      omega
    have hbad' : ∀ i, i < k → validate_header c (hwin c b.data i) = false := by
      intro i hi
      rw [← hwin_vbytes (by omega), hvb]
      exact hbad i hi
    have hgood' : validate_header c (hwin c b.data k) = true := by
      rw [← hwin_vbytes (by omega), hvb]
      exact hgood
    obtain ⟨b1, hrs, hh1, hv1, -⟩ :=
      header_re_synch_found hblen (by omega) hbad' hgood'
    refine ⟨b1, hrs, hh1, ?_, by simp [process_step, hrs]⟩
    rw [hv1, hvb]
  · obtain ⟨b2, -, hcase⟩ :=
      feed_chunks_synch hS hbad hgood chunks 0
        ⟨List.replicate (UART_BUFFER_SIZE c) 0, 0⟩ hchne hch hchcap
        (by rw [List.drop_zero]; exact hjoin) (by omega)
        (by simp) (by simp) (by simp [UartBuffer.vbytes])
    exact ⟨b2, hcase⟩

/-- C1 witness: three garbage bytes followed by a valid test-codec header,
fed whole and fed in three chunks — once with the header `[20, 2, 0, 22]`
announcing a 2-byte payload (ends synchronized in SeekingPayload), and once
with the zero-payload header `[20, 0, 0, 20]` (the header-only frame is
emitted and the buffer ends empty). -/
theorem C1_resync_at_single_header_witness :
    (∃ b1, header_re_synch testCodec ⟨[1, 2, 3, 20, 2, 0, 22], 7⟩ = (true, b1) ∧
      b1.head = 4 ∧ b1.vbytes = [20, 2, 0, 22]) ∧
    (∃ b2, feed_chunks testCodec [[1, 2], [3, 20], [2, 0, 22]] .EXPECTING_HEADER
        ⟨List.replicate (UART_BUFFER_SIZE testCodec) 0, 0⟩ =
        some (.EXPECTING_PAYLOAD, b2, []) ∧
      b2.vbytes = [20, 2, 0, 22] ∧ b2.head = 4) ∧
    (∃ b3, feed_chunks testCodec [[1, 2], [3, 20], [0, 0, 20]] .EXPECTING_HEADER
        ⟨List.replicate (UART_BUFFER_SIZE testCodec) 0, 0⟩ =
        some (.EXPECTING_HEADER, b3, [[20, 0, 0, 20]]) ∧
      b3.vbytes = [] ∧ b3.head = 0) := by
  obtain ⟨⟨b1, hrs, hh1, hv1, -⟩, ⟨b2, hcase⟩⟩ :=
    C1_resync_at_single_header testCodec [1, 2, 3, 20, 2, 0, 22] 3
      [[1, 2], [3, 20], [2, 0, 22]] ⟨[1, 2, 3, 20, 2, 0, 22], 7⟩
      (by decide)
      (by
        intro i hi
        have h3 : i = 0 ∨ i = 1 ∨ i = 2 := by omega
        rcases h3 with rfl | rfl | rfl <;> decide)
      (by decide) (by decide) (by decide) (by decide) (by decide) (by decide)
      (by decide)
  obtain ⟨-, ⟨b3, hcase0⟩⟩ :=
    C1_resync_at_single_header testCodec [1, 2, 3, 20, 0, 0, 20] 3
      [[1, 2], [3, 20], [0, 0, 20]] ⟨[1, 2, 3, 20, 0, 0, 20], 7⟩
      (by decide)
      (by
        intro i hi
        have h3 : i = 0 ∨ i = 1 ∨ i = 2 := by omega
        rcases h3 with rfl | rfl | rfl <;> decide)
      (by decide) (by decide) (by decide) (by decide) (by decide) (by decide)
      (by decide)
  refine ⟨⟨b1, hrs, hh1, hv1⟩, ?_, ?_⟩
  · rcases hcase with ⟨-, hfeed, hv2, hh2⟩ | ⟨h0, -, -, -⟩
    · exact ⟨b2, hfeed, hv2, hh2⟩
    · exact absurd h0 (by decide)
  · rcases hcase0 with ⟨h0, -, -, -⟩ | ⟨-, hfeed, hv3, hh3⟩
    · exact absurd h0 (by decide)
    · exact ⟨b3, hfeed, hv3, hh3⟩

/-- C2: in state SeekingPayload with a header at offset 0, payload
delimiting returns no progress when `head` is below the header size;
otherwise, with `frame_size` = payload-length field + header size, it
returns no progress when `head < frame_size`; otherwise it emits exactly
bytes `[0, frame_size)` to the core channel, moves bytes
`[frame_size, head)` to offset 0, reduces `head` by `frame_size`, and
reports progress; and a zero-length payload yields a header-only frame. -/
theorem C2_payload_delimiting (c : Codec) (b : UartBuffer)
    (hlen : b.head ≤ b.data.length) :
    (b.head < c.headerRawSize →
      delimit_and_push_frames_to_core c b = (none, b) ∧
      process_step c .EXPECTING_PAYLOAD b = (.EXPECTING_PAYLOAD, b, none, false)) ∧
    (c.headerRawSize ≤ b.head →
      b.head < c.getLength (hwin c b.data 0) + c.headerRawSize →
      delimit_and_push_frames_to_core c b = (none, b) ∧
      process_step c .EXPECTING_PAYLOAD b = (.EXPECTING_PAYLOAD, b, none, false)) ∧
    (c.getLength (hwin c b.data 0) + c.headerRawSize ≤ b.head →
      ∃ b', delimit_and_push_frames_to_core c b =
          (some (b.vbytes.take (c.getLength (hwin c b.data 0) + c.headerRawSize)), b') ∧
        b'.head = b.head - (c.getLength (hwin c b.data 0) + c.headerRawSize) ∧
        b'.vbytes = b.vbytes.drop (c.getLength (hwin c b.data 0) + c.headerRawSize) ∧
        process_step c .EXPECTING_PAYLOAD b = (.EXPECTING_HEADER, b',
          some (b.vbytes.take (c.getLength (hwin c b.data 0) + c.headerRawSize)), true)) ∧
    (c.getLength (hwin c b.data 0) = 0 → c.headerRawSize ≤ b.head →
      (delimit_and_push_frames_to_core c b).1 =
        some (b.vbytes.take c.headerRawSize)) := by
  refine ⟨?_, ?_, ?_, ?_⟩
  · intro h
    have heq := @delimit_short c b h
    exact ⟨heq, by simp [process_step, heq]⟩
  · intro hge hfs
    have heq := delimit_insufficient hge hfs
    exact ⟨heq, by simp [process_step, heq]⟩
  · intro hfs
    obtain ⟨b', heq, h1, h2, -⟩ := delimit_emit hlen hfs
    exact ⟨b', heq, h1, h2, by simp [process_step, heq]⟩
  · intro h0 hge
    obtain ⟨b', heq, -, -, -⟩ := delimit_emit hlen
      (show c.getLength (hwin c b.data 0) + c.headerRawSize ≤ b.head by omega)
    rw [heq]
    rw [h0, Nat.zero_add]

/-- C2 witness: a complete frame with a 2-byte payload buffered at the test
codec is emitted whole and empties the buffer. -/
theorem C2_payload_delimiting_witness :
    ∃ b', delimit_and_push_frames_to_core testCodec ⟨[20, 2, 0, 22, 9, 9], 6⟩ =
        (some [20, 2, 0, 22, 9, 9], b') ∧ b'.head = 0 := by
  obtain ⟨b', heq, h1, -, -⟩ :=
    (C2_payload_delimiting testCodec ⟨[20, 2, 0, 22, 9, 9], 6⟩ (by decide)).2.2.1
      (by decide)
  refine ⟨b', ?_, by rw [h1]; decide⟩
  rw [heq]
  rfl

/-- C3: a buffered byte sequence of length at least the header size in
which no header-sized window validates is shrunk by the resync pass to
exactly its last `headerRawSize - 1` bytes, relocated to offset 0, the
state stays SeekingHeader and the pass reports no progress. -/
theorem C3_resynch_failure_retention (c : Codec) (b : UartBuffer)
    (hlen : b.head ≤ b.data.length)
    (hge : c.headerRawSize ≤ b.head)
    (hbad : ∀ i, i + c.headerRawSize ≤ b.head →
      validate_header c (hwin c b.vbytes i) = false) :
    ∃ b', header_re_synch c b = (false, b') ∧
      b'.head = c.headerRawSize - 1 ∧
      b'.vbytes = b.vbytes.drop (b.head - (c.headerRawSize - 1)) ∧
      b'.vbytes.length = c.headerRawSize - 1 ∧
      process_step c .EXPECTING_HEADER b = (.EXPECTING_HEADER, b', none, false) := by
  have hpos := c.headerRawSize_pos
  have hbad' : ∀ i, i + c.headerRawSize ≤ b.head →
      validate_header c (hwin c b.data i) = false := by
    intro i hi
    rw [← hwin_vbytes hi]
    exact hbad i hi
  obtain ⟨b', heq, h1, h2, h3⟩ := header_re_synch_notfound hlen hge hbad'
  refine ⟨b', heq, h1, h2, ?_, by simp [process_step, heq]⟩
  have : b'.head ≤ b'.data.length := by omega
  rw [vbytes_length this, h1]

/-- C3 witness: five bytes containing no marker byte are reduced to their
last three bytes at the test codec (header size 4). -/
theorem C3_resynch_failure_retention_witness :
    ∃ b', header_re_synch testCodec ⟨[1, 2, 3, 4, 5], 5⟩ = (false, b') ∧
      b'.head = 3 ∧ b'.vbytes = [3, 4, 5] := by
  obtain ⟨b', heq, h1, h2, -, -⟩ :=
    C3_resynch_failure_retention testCodec ⟨[1, 2, 3, 4, 5], 5⟩ (by decide) (by decide)
      (by
        intro i hi
        have h4 : testCodec.headerRawSize = 4 := rfl
        have h5 : (UartBuffer.mk [1, 2, 3, 4, 5] 5).head = 5 := rfl
        rw [h4, h5] at hi
        have h01 : i = 0 ∨ i = 1 := by omega
        rcases h01 with rfl | rfl <;> decide)
  refine ⟨b', heq, h1, ?_⟩
  rw [h2]
  rfl

/-- C6: if the payload-length field of the header at offset 0 exceeds 4096,
the frame size exceeds the buffer capacity `4096 + headerRawSize`, so for
every cursor value within capacity the delimiting pass returns no progress
with the buffer untouched, and the processing loop never leaves the
SeekingPayload state for that buffer content. -/
theorem C6_oversized_frame_never_emitted (c : Codec) (b : UartBuffer)
    (hcap : b.head ≤ UART_BUFFER_SIZE c)
    (hpl : 4096 < c.getLength (hwin c b.data 0)) :
    delimit_and_push_frames_to_core c b = (none, b) ∧
    ∀ fuel, process_loop c (fuel + 1) .EXPECTING_PAYLOAD b =
      some (.EXPECTING_PAYLOAD, b, []) := by
  have hcap' : b.head ≤ 4096 + c.headerRawSize := hcap
  have heq : delimit_and_push_frames_to_core c b = (none, b) := by
    by_cases hsh : b.head < c.headerRawSize
    · exact delimit_short hsh
    · exact delimit_insufficient (by omega) (by omega)
  exact ⟨heq, fun fuel => by simp [process_loop, heq]⟩

/-- C6 witness: a header announcing a 4097-byte payload at the test codec
is never delimited. -/
theorem C6_oversized_frame_never_emitted_witness :
    delimit_and_push_frames_to_core testCodec ⟨[20, 1, 16, 37], 4⟩ =
      (none, ⟨[20, 1, 16, 37], 4⟩) ∧
    process_loop testCodec 9 .EXPECTING_PAYLOAD ⟨[20, 1, 16, 37], 4⟩ =
      some (.EXPECTING_PAYLOAD, ⟨[20, 1, 16, 37], 4⟩, []) := by
  obtain ⟨h1, h2⟩ :=
    C6_oversized_frame_never_emitted testCodec ⟨[20, 1, 16, 37], 4⟩ (by decide) (by decide)
  exact ⟨h1, h2 8⟩

/-- C9: opening the link succeeds only for a bit rate in the fixed
enumerated set {9600, 19200, 38400, 57600, 115200, 230400, 460800, 921600};
every other bit rate makes `driver_uart_open` hit the fatal
`invalid bitrate` abort. -/
theorem C9_bitrate_validation (bitrate : Nat) :
    driver_uart_open_bitrate_fatal bitrate = false ↔
      bitrate ∈ supported_bitrates := by
  unfold driver_uart_open_bitrate_fatal driver_uart_open_sym bitrate_conversion
    supported_bitrates
  simp only [List.foldl_cons, List.foldl_nil, List.mem_cons, List.not_mem_nil, or_false]
  split_ifs <;> simp_all
  omega

/-- C10: the dispatcher readiness wait is retried transparently across any
count of benign interruptions; a wait failure that is not an interruption is
fatal, a wake reporting zero ready sources is fatal, and a wake with a
positive count proceeds to dispatch. -/
theorem C10_wait_retry_and_fatal (k : Nat) (rest : List WaitOutcome) (n : Nat) :
    wait_for_action (List.replicate k (.fail true) ++ .fail false :: rest) =
      some .fatal ∧
    wait_for_action (List.replicate k (.fail true) ++ .ok 0 :: rest) =
      some .fatal ∧
    (0 < n → wait_for_action (List.replicate k (.fail true) ++ .ok n :: rest) =
      some (.proceed n)) := by
  induction k with
  | zero =>
    refine ⟨rfl, rfl, fun hn => ?_⟩
    simp only [List.replicate, List.nil_append, wait_for_action]
    rw [if_neg (by omega)]
  | succ k ih =>
    simpa [List.replicate_succ, wait_for_action] using ih

/-- C10 witness: two interruptions followed by a wake with one ready source
proceed; followed instead by a failing wait or an empty wake, the loop is
fatal. -/
theorem C10_wait_retry_and_fatal_witness :
    wait_for_action (List.replicate 2 (.fail true) ++ .fail false :: []) =
      some .fatal ∧
    wait_for_action (List.replicate 2 (.fail true) ++ .ok 0 :: []) =
      some .fatal ∧
    wait_for_action (List.replicate 2 (.fail true) ++ .ok 1 :: []) =
      some (.proceed 1) := by
  obtain ⟨h1, h2, h3⟩ := C10_wait_retry_and_fatal 2 [] 1
  exact ⟨h1, h2, h3 (by decide)⟩

/-- The drain loop over a queue depth decreasing one byte per poll ends
with the observation of depth 0, and no link write, idle sleep, or earlier
depth-0 observation occurs inside it. -/
theorem drain_decList (n : Nat) (hn : 1 ≤ n) :
    ∃ q, drain_queue_events n (decList n) = some (q ++ [.pollDepth 0]) ∧
      ∀ e ∈ q, e ≠ .pollDepth 0 ∧ e ≠ .sleepIdle 20 ∧ e ≠ .writeLink := by
  induction n with
  | zero => omega
  | succ n ih =>
    by_cases h1 : n = 0
    · subst h1
      exact ⟨[.sleepDrain 1], rfl, by decide⟩
    · obtain ⟨q, hq, hmem⟩ := ih (by omega)
      refine ⟨.sleepDrain (n + 1) :: .pollDepth n :: q, ?_, ?_⟩
      · show drain_queue_events (n + 1) (n :: decList n) = _
        simp [drain_queue_events, hq]
      · intro e he
        rcases List.mem_cons.mp he with rfl | he'
        · exact ⟨by simp, by simp, by simp⟩
        · rcases List.mem_cons.mp he' with rfl | he''
          · exact ⟨by simp [h1], by simp, by simp⟩
          · exact hmem e he''

/-- C5: for a core message, given the decreasing transmit-queue-depth
sequence `[n, n-1, ..., 0]`, the egress pacer issues the link write only
after the depth-0 observation and the fixed 20-byte-time idle sleep, never
before: the event trace is exactly some prefix free of writes, idle sleeps
and depth-0 observations, followed by the depth-0 poll, the idle sleep and
the write, in that order. -/
theorem C5_egress_pacing_order (n : Nat) :
    ∃ pre, driver_uart_process_core (n :: decList n) =
        some (pre ++ [.pollDepth 0, .sleepIdle 20, .writeLink]) ∧
      ∀ e ∈ pre, e ≠ .pollDepth 0 ∧ e ≠ .sleepIdle 20 ∧ e ≠ .writeLink := by
  by_cases h0 : n = 0
  · subst h0
    exact ⟨[], rfl, by simp⟩
  · obtain ⟨q, hq, hmem⟩ := drain_decList n (by omega)
    refine ⟨.pollDepth n :: q, ?_, ?_⟩
    · show (drain_queue_events n (decList n)).map _ = _
      rw [hq]
      simp
    · intro e he
      rcases List.mem_cons.mp he with rfl | he'
      · exact ⟨by simp [h0], by simp, by simp⟩
      · exact hmem e he'

/-- C4 counterexample to the claim as stated: with cursor 4098 there are
only 2 bytes of remaining capacity, yet an available-byte count of 5 does
not make the append fail; the read is silently clamped to 2 bytes. -/
theorem C4_overflow_counterexample :
    5 > UART_BUFFER_SIZE testCodec - 4098 ∧
    (read_and_append_uart_received_data [1, 2, 3, 4, 5]
        ⟨List.replicate (UART_BUFFER_SIZE testCodec) 0, 4098⟩
        (UART_BUFFER_SIZE testCodec)).map Prod.fst = some 2 := by
  constructor
  · decide
  · rw [read_and_append_eq (by decide)]
    rfl

/-- C4 (amended): the append clamps the read to the remaining capacity
`capacity - head` instead of failing: an excess of available bytes is
silently truncated (left in the device queue), the appended count never
exceeds the remaining capacity, and the only fatal condition of the append
is an available-byte count of zero on a readable wake. -/
theorem C4_append_clamps (incoming : List Nat) (b : UartBuffer) (size : Nat)
    (hhead : b.head ≤ size) (hlen : b.data.length = size) :
    read_and_append_uart_received_data [] b size = none ∧
    (incoming ≠ [] →
      ∃ n b1, read_and_append_uart_received_data incoming b size = some (n, b1) ∧
        n = min incoming.length (size - b.head) ∧
        n ≤ size - b.head ∧ b1.head = b.head + n ∧ b1.head ≤ size) := by
  refine ⟨rfl, fun hne => ?_⟩
  obtain ⟨n, b1, heq, hn, hh1, hh2, -, -⟩ := read_and_append_spec
    (by simpa [List.length_eq_zero] using hne) hhead hlen
  exact ⟨n, b1, heq, hn, by omega, hh1, hh2⟩

/-- C4 witness: the amended claim at a buffer with 2 bytes of remaining
capacity and 5 available bytes. -/
theorem C4_append_clamps_witness :
    ∃ n b1, read_and_append_uart_received_data [1, 2, 3, 4, 5]
        ⟨List.replicate (UART_BUFFER_SIZE testCodec) 0, 4098⟩
        (UART_BUFFER_SIZE testCodec) = some (n, b1) ∧
      n ≤ UART_BUFFER_SIZE testCodec - 4098 := by
  obtain ⟨-, h⟩ := C4_append_clamps [1, 2, 3, 4, 5]
    ⟨List.replicate (UART_BUFFER_SIZE testCodec) 0, 4098⟩
    (UART_BUFFER_SIZE testCodec) (by decide) (by simp)
  obtain ⟨n, b1, heq, -, hle, -, -⟩ := h (by decide)
  exact ⟨n, b1, heq, hle⟩

end CpcUart
